import Mathlib

/-!
Verification of `src/comments.py` (hashgraph-online/desktop utility script).

The script walks a directory tree and, for every `.ts`/`.js` file, rewrites
the file with `remove_inline_comments`: the content is split on the newline
character, every line matching the regular expression `^\s*//` is dropped
unless `line.strip()` starts with the JSDoc opener `/**`, and the kept lines
are rejoined with newlines.

Strings are modelled as `List Char`.  Whitespace is the ASCII whitespace set,
on which Python's `\s` (in `re.match`) and `str.strip` agree for the inputs
considered here.
-/

/-- ASCII whitespace, as matched by Python's `\s` and stripped by `str.strip`. -/
def isPySpace (c : Char) : Bool :=
  c == ' ' || c == '\t' || c == '\n' || c == '\r' || c == '\x0b' || c == '\x0c'

/-- Python `str.lstrip()` (remove leading whitespace). -/
def lstrip (l : List Char) : List Char := l.dropWhile isPySpace

/-- Removal of trailing whitespace. -/
def rstrip (l : List Char) : List Char := (l.reverse.dropWhile isPySpace).reverse

/-- Python `str.strip()` (remove leading and trailing whitespace). -/
def pyStrip (l : List Char) : List Char := rstrip (lstrip l)

/-- `re.match(r'^\s*//', line)` succeeds: after the leading whitespace run the
line continues with `//`.  Since `/` is not whitespace, backtracking inside
`\s*` gains nothing and the regex is equivalent to this prefix test. -/
def matchesInlineComment (line : List Char) : Bool :=
  ['/', '/'].isPrefixOf (lstrip line)

/-- `line.strip().startswith('/**')` from line 20 of `comments.py`. -/
def startsJsdoc (line : List Char) : Bool :=
  ['/', '*', '*'].isPrefixOf (pyStrip line)

/-- The per-line keep decision of the `for` loop in `remove_inline_comments`:
a line is appended to `processed_lines` unless it matches `^\s*//` and its
stripped form does not start with `/**`. -/
def keepLine (line : List Char) : Bool :=
  !(matchesInlineComment line && !startsJsdoc line)

/-- Python `content.split('\n')`: note `splitOnNl [] = [[]]`, as in Python
where `''.split('\n') == ['']`. -/
def splitOnNl : List Char → List (List Char)
  | [] => [[]]
  | c :: cs =>
    if c = '\n' then [] :: splitOnNl cs
    else
      match splitOnNl cs with
      | [] => [[c]]
      | l :: ls => (c :: l) :: ls

/-- Python `'\n'.join(lines)`. -/
def joinNl : List (List Char) → List Char
  | [] => []
  | [l] => l
  | l :: ls => l ++ '\n' :: joinNl ls

/-- The pure content transformation performed by `remove_inline_comments`
(lines 13–25 of `comments.py`): split on newlines, keep the lines passing
`keepLine`, rejoin with newlines.  The surrounding code reads the file into
`content` and writes this value back. -/
def remove_inline_comments (content : List Char) : List Char :=
  joinNl ((splitOnNl content).filter keepLine)

/-- The lines of the output content, i.e. `processed_lines` in the source. -/
def keptLines (content : List Char) : List (List Char) :=
  (splitOnNl content).filter keepLine

example : remove_inline_comments "const x = 1;\n// drop me\n/** keep me */\n  // also drop".toList
    = "const x = 1;\n/** keep me */".toList := by decide

example : remove_inline_comments "// note".toList = [] := by decide

/-! ### Basic lemmas about `splitOnNl` and `joinNl` -/

theorem splitOnNl_ne_nil (cs : List Char) : splitOnNl cs ≠ [] := by
  induction cs with
  | nil => simp [splitOnNl]
  | cons c cs ih =>
    simp only [splitOnNl]
    split
    · simp
    · cases h : splitOnNl cs with
      | nil => simp
      | cons l ls => simp

theorem mem_splitOnNl_no_newline (cs : List Char) :
    ∀ l ∈ splitOnNl cs, '\n' ∉ l := by
  induction cs with
  | nil =>
    intro l hl
    simp [splitOnNl] at hl
    simp [hl]
  | cons c cs ih =>
    intro l hl
    simp only [splitOnNl] at hl
    split at hl
    · rcases List.mem_cons.mp hl with h | h
      · simp [h]
      · exact ih l h
    · rename_i hc
      cases h : splitOnNl cs with
      | nil => exact absurd h (splitOnNl_ne_nil cs)
      | cons t ts =>
        rw [h] at hl
        rcases List.mem_cons.mp hl with h1 | h1
        · subst h1
          intro hmem
          rcases List.mem_cons.mp hmem with h2 | h2
          · exact hc h2.symm
          · exact ih t (h ▸ List.mem_cons_self t ts) h2
        · exact ih l (h ▸ List.mem_cons.mpr (Or.inr h1))

theorem splitOnNl_no_newline (l : List Char) (hl : '\n' ∉ l) :
    splitOnNl l = [l] := by
  induction l with
  | nil => simp [splitOnNl]
  | cons c t ih =>
    have hc : c ≠ '\n' := fun h => hl (h ▸ List.mem_cons_self c t)
    have ht : '\n' ∉ t := fun h => hl (List.mem_cons.mpr (Or.inr h))
    simp only [splitOnNl, if_neg hc, ih ht]

theorem splitOnNl_append_no_newline (l rest : List Char) (hl : '\n' ∉ l) :
    splitOnNl (l ++ '\n' :: rest) = l :: splitOnNl rest := by
  induction l with
  | nil => simp [splitOnNl]
  | cons c t ih =>
    have hc : c ≠ '\n' := fun h => hl (h ▸ List.mem_cons_self c t)
    have ht : '\n' ∉ t := fun h => hl (List.mem_cons.mpr (Or.inr h))
    have ihe := ih ht
    simp only [List.cons_append, splitOnNl, if_neg hc, List.append_eq] at *
    rw [ihe]

theorem splitOnNl_joinNl (ls : List (List Char)) (hne : ls ≠ [])
    (hnl : ∀ l ∈ ls, '\n' ∉ l) : splitOnNl (joinNl ls) = ls := by
  induction ls with
  | nil => exact absurd rfl hne
  | cons l ls ih =>
    cases ls with
    | nil =>
      simp only [joinNl]
      exact splitOnNl_no_newline l (hnl l (List.mem_cons_self l []))
    | cons m ms =>
      have hstep : joinNl (l :: m :: ms) = l ++ '\n' :: joinNl (m :: ms) := rfl
      rw [hstep, splitOnNl_append_no_newline l _ (hnl l (List.mem_cons_self l _))]
      rw [ih (by simp) (fun a ha => hnl a (List.mem_cons.mpr (Or.inr ha)))]

/-! ### The JSDoc keep-branch is dead on `^\s*//` lines -/

theorem dropWhile_append_singleton (p : Char → Bool) (xs : List Char) (a : Char)
    (ha : p a = false) : (xs ++ [a]).dropWhile p = xs.dropWhile p ++ [a] := by
  induction xs with
  | nil => simp [List.dropWhile, ha]
  | cons x xs ih =>
    by_cases hx : p x = true
    · simp [List.dropWhile, hx, ih]
    · simp [List.dropWhile, hx]

theorem rstrip_cons (a : Char) (l : List Char) (ha : isPySpace a = false) :
    rstrip (a :: l) = a :: rstrip l := by
  unfold rstrip
  rw [List.reverse_cons, dropWhile_append_singleton isPySpace l.reverse a ha]
  simp

theorem matchesInlineComment_shape (line : List Char)
    (h : matchesInlineComment line = true) :
    ∃ t, lstrip line = '/' :: '/' :: t := by
  unfold matchesInlineComment at h
  cases hl : lstrip line with
  | nil => rw [hl] at h; simp [List.isPrefixOf] at h
  | cons c cs =>
    cases cs with
    | nil => rw [hl] at h; simp [List.isPrefixOf] at h
    | cons d ds =>
      rw [hl] at h
      simp [List.isPrefixOf] at h
      exact ⟨ds, by rw [← h.1, ← h.2]⟩

theorem comment_line_not_jsdoc (line : List Char)
    (h : matchesInlineComment line = true) : startsJsdoc line = false := by
  obtain ⟨t, ht⟩ := matchesInlineComment_shape line h
  unfold startsJsdoc pyStrip
  rw [ht, rstrip_cons '/' _ (by decide), rstrip_cons '/' _ (by decide)]
  simp [List.isPrefixOf]

theorem keepLine_eq_not_matches (line : List Char) :
    keepLine line = !matchesInlineComment line := by
  unfold keepLine
  cases h : matchesInlineComment line with
  | false => simp
  | true => simp [comment_line_not_jsdoc line h]

/-! ### Lines of the output -/

theorem mem_keptLines_no_newline (c : List Char) :
    ∀ l ∈ keptLines c, '\n' ∉ l := fun l hl =>
  mem_splitOnNl_no_newline c l (List.mem_of_mem_filter hl)

theorem splitOnNl_remove_of_ne_nil (c : List Char) (h : keptLines c ≠ []) :
    splitOnNl (remove_inline_comments c) = keptLines c :=
  splitOnNl_joinNl (keptLines c) h (mem_keptLines_no_newline c)

theorem remove_eq_nil_of_keptLines_nil (c : List Char) (h : keptLines c = []) :
    remove_inline_comments c = [] := by
  unfold remove_inline_comments
  unfold keptLines at h
  rw [h]
  rfl

theorem mem_splitOnNl_remove_keep (c : List Char) :
    ∀ l ∈ splitOnNl (remove_inline_comments c), keepLine l = true := by
  intro l hl
  cases hk : keptLines c with
  | nil =>
    rw [remove_eq_nil_of_keptLines_nil c hk] at hl
    simp only [splitOnNl] at hl
    rcases List.mem_singleton.mp hl with rfl
    decide
  | cons t ts =>
    rw [splitOnNl_remove_of_ne_nil c (by rw [hk]; simp)] at hl
    exact List.of_mem_filter hl

/-! ### Claim theorems about the line filter -/

/-- C1: every input line whose form after removing leading whitespace does not
start with `//` is kept verbatim by `remove_inline_comments`, and the kept
lines appear in the output content in their original relative order
(`List.Sublist` of the output's lines). -/
theorem non_comment_lines_preserved (c : List Char) :
    List.Sublist ((splitOnNl c).filter (fun l => !matchesInlineComment l))
      (splitOnNl (remove_inline_comments c)) := by
  have h1 : List.Sublist ((splitOnNl c).filter (fun l => !matchesInlineComment l))
      (keptLines c) := by
    unfold keptLines
    refine List.monotone_filter_right _ (fun a ha => ?_)
    rw [keepLine_eq_not_matches]
    exact ha
  cases hk : keptLines c with
  | nil =>
    rw [hk] at h1
    have h2 : (splitOnNl c).filter (fun l => !matchesInlineComment l) = [] :=
      List.sublist_nil.mp h1
    rw [h2]
    exact List.nil_sublist _
  | cons t ts =>
    rw [splitOnNl_remove_of_ne_nil c (by rw [hk]; simp)]
    exact h1

/-- C2: no line of the output of `remove_inline_comments` both starts with
`//` after removing leading whitespace and fails to start with `/**` after
stripping: every such input line is removed from the output content. -/
theorem comment_lines_removed (c l : List Char)
    (hmem : l ∈ splitOnNl (remove_inline_comments c)) :
    ¬(matchesInlineComment l = true ∧ startsJsdoc l = false) := by
  rintro ⟨h1, h2⟩
  have hk := mem_splitOnNl_remove_keep c l hmem
  rw [keepLine_eq_not_matches, h1] at hk
  exact Bool.false_ne_true hk

/-- C3: every input line that starts with the documentation-block opener `/**`
after removing leading whitespace is kept: it is a line of the output
content of `remove_inline_comments`. -/
theorem jsdoc_lines_kept (c l : List Char) (hmem : l ∈ splitOnNl c)
    (hj : ['/', '*', '*'].isPrefixOf (lstrip l) = true) :
    l ∈ splitOnNl (remove_inline_comments c) := by
  have hm : matchesInlineComment l = false := by
    unfold matchesInlineComment
    cases hl : lstrip l with
    | nil => rw [hl] at hj; simp [List.isPrefixOf] at hj
    | cons a t =>
      rw [hl] at hj
      cases t with
      | nil => simp [List.isPrefixOf] at hj
      | cons b s =>
        simp [List.isPrefixOf] at hj ⊢
        intro h1 h2
        exact absurd (hj.2.1.trans h2.symm) (by decide)
  have hkeep : keepLine l = true := by
    rw [keepLine_eq_not_matches, hm]
    rfl
  have hmemk : l ∈ keptLines c := List.mem_filter.mpr ⟨hmem, hkeep⟩
  have hne : keptLines c ≠ [] := fun h => by rw [h] at hmemk; exact List.not_mem_nil l hmemk
  rw [splitOnNl_remove_of_ne_nil c hne]
  exact hmemk

/-- C4: the line filter is idempotent:
`remove_inline_comments (remove_inline_comments c) = remove_inline_comments c`
for every content `c`. -/
theorem remove_inline_comments_idem (c : List Char) :
    remove_inline_comments (remove_inline_comments c) = remove_inline_comments c := by
  cases hk : keptLines c with
  | nil =>
    rw [remove_eq_nil_of_keptLines_nil c hk]
    decide
  | cons t ts =>
    have hsplit := splitOnNl_remove_of_ne_nil c (by rw [hk]; simp)
    show joinNl ((splitOnNl (remove_inline_comments c)).filter keepLine)
        = remove_inline_comments c
    rw [hsplit]
    have hfix : (keptLines c).filter keepLine = keptLines c :=
      List.filter_eq_self.mpr (fun a ha => List.of_mem_filter ha)
    rw [hfix]
    rfl

/-- C9: the content consisting solely of the line `// note`, with or without a
trailing newline, filters to the empty content. -/
theorem comment_only_file_becomes_empty :
    remove_inline_comments "// note".toList = [] ∧
    remove_inline_comments "// note\n".toList = [] := by decide

/-! ### C10: the filter refines the simpler unconditional drop -/

/-- The simpler filter described by the spec's implicit-refinement reading:
every line matching leading-whitespace-then-`//` is dropped unconditionally,
with no JSDoc exception. -/
def dropCommentLinesSimple (content : List Char) : List Char :=
  joinNl ((splitOnNl content).filter (fun l => !matchesInlineComment l))

/-- C10: the JSDoc keep-exception branch never fires — every line matching
leading-whitespace-then-`//` has a stripped form starting with `//`, which
never starts with `/**` — so `remove_inline_comments` is extensionally equal
to the simpler filter that unconditionally drops every such line. -/
theorem remove_inline_comments_eq_simple :
    (∀ line : List Char, matchesInlineComment line = true → startsJsdoc line = false) ∧
    ∀ c : List Char, remove_inline_comments c = dropCommentLinesSimple c := by
  refine ⟨comment_line_not_jsdoc, fun c => ?_⟩
  unfold remove_inline_comments dropCommentLinesSimple
  congr 1
  exact List.filter_congr (fun a _ => keepLine_eq_not_matches a)

/-- Witness for C10: the dead-branch fact and the extensional equality at a
concrete comment line and a concrete content. -/
theorem remove_inline_comments_eq_simple_witness :
    startsJsdoc "  // x".toList = false ∧
    remove_inline_comments "a\n// b".toList = dropCommentLinesSimple "a\n// b".toList :=
  ⟨remove_inline_comments_eq_simple.1 "  // x".toList (by decide),
   remove_inline_comments_eq_simple.2 "a\n// b".toList⟩

/-! ### C5: lines inside block comments -/

/-- C5 counterexample: the line `  // x` lies inside the block comment
`/* ... */` of the content `/*\n  // x\n*/`, yet the filter drops it — lines
inside a multi-line block comment are NOT exempt from deletion. -/
theorem block_interior_comment_line_dropped :
    "  // x".toList ∈ splitOnNl "/*\n  // x\n*/".toList ∧
    "  // x".toList ∉ splitOnNl (remove_inline_comments "/*\n  // x\n*/".toList) ∧
    remove_inline_comments "/*\n  // x\n*/".toList = "/*\n*/".toList := by decide

/-- A single-interior-line `/* ... */` block, as a content value. -/
def blockWrap (l : List Char) : List Char :=
  "/*".toList ++ ('\n' :: (l ++ ('\n' :: "*/".toList)))

/-- C5 amended: lines inside a `/* ... */` block receive no special handling —
each is subject to the same per-line rule, so an interior line is dropped
exactly when it matches leading-whitespace-then-`//`; a block whose interior
line does not match is left entirely unchanged. -/
theorem block_interior_line_uniform (l : List Char) (hnl : '\n' ∉ l)
    (h : matchesInlineComment l = false) :
    remove_inline_comments (blockWrap l) = blockWrap l := by
  have hsplit : splitOnNl (blockWrap l) = ["/*".toList, l, "*/".toList] := by
    unfold blockWrap
    rw [splitOnNl_append_no_newline "/*".toList _ (by decide),
        splitOnNl_append_no_newline l _ hnl,
        splitOnNl_no_newline "*/".toList (by decide)]
  have hk : keepLine l = true := by
    rw [keepLine_eq_not_matches, h]
    rfl
  unfold remove_inline_comments
  rw [hsplit]
  rw [show (["/*".toList, l, "*/".toList].filter keepLine)
      = ["/*".toList, l, "*/".toList] from by
    simp [List.filter, hk, show keepLine ['/', '*'] = true from by decide,
      show keepLine ['*', '/'] = true from by decide]]
  unfold blockWrap
  simp [joinNl]

/-- Witness for the amended C5 at a concrete non-comment interior line. -/
theorem block_interior_line_uniform_witness :
    remove_inline_comments (blockWrap "  let y = 2;".toList)
      = blockWrap "  let y = 2;".toList :=
  block_interior_line_uniform "  let y = 2;".toList (by decide) (by decide)

/-- Witness for C2 at a concrete content and output line. -/
theorem comment_lines_removed_witness :
    ¬(matchesInlineComment "x".toList = true ∧ startsJsdoc "x".toList = false) :=
  comment_lines_removed "x".toList "x".toList (by decide)

/-- Witness for C3 at a concrete content and JSDoc line. -/
theorem jsdoc_lines_kept_witness :
    "/** doc */".toList ∈
      splitOnNl (remove_inline_comments "/** doc */\n// drop".toList) :=
  jsdoc_lines_kept "/** doc */\n// drop".toList "/** doc */".toList
    (by decide) (by decide)

/-! ### The driver (`main`, lines 37–51 of `comments.py`)

A file of the walked tree is modelled by its path and the outcome of
processing it: `Except.ok content` when reading and decoding succeed, or
`Except.error msg` when any step of `remove_inline_comments` raises (the
`except Exception` branch of `main`).  The file system is the list of files
in `os.walk` order; `sys.argv` is the full argument vector including the
program name, so the source's `len(sys.argv) != 2` test is `argv.length ≠ 2`.
-/

structure SrcFile where
  path : List Char
  read : Except (List Char) (List Char)

/-- `file.endswith('.ts') or file.endswith('.js')` (line 46). -/
def matchesExt (p : List Char) : Bool :=
  ".ts".toList.isSuffixOf p || ".js".toList.isSuffixOf p

/-- The success message printed at line 35. -/
def processedMsg (p : List Char) : List Char :=
  "Processed: ".toList ++ p

/-- The failure message printed at line 51. -/
def errorMsg (p e : List Char) : List Char :=
  "Error processing ".toList ++ p ++ ": ".toList ++ e

/-- The usage message printed at line 39. -/
def usageMsg : List Char :=
  "Usage: python remove_inline_comments.py <directory>".toList

/-- The walk loop of `main`: visit each file in order; a file with a matching
extension is rewritten with `remove_inline_comments` and produces a
`Processed:` line, or is left unchanged and produces an `Error processing`
line when processing raises; other files are untouched and silent.
Returns the resulting file system and the console lines, in order. -/
def runWalk : List SrcFile → List SrcFile × List (List Char)
  | [] => ([], [])
  | f :: fs =>
    let rest := runWalk fs
    if matchesExt f.path then
      match f.read with
      | Except.ok c =>
        ({ path := f.path, read := Except.ok (remove_inline_comments c) } :: rest.1,
         processedMsg f.path :: rest.2)
      | Except.error e => (f :: rest.1, errorMsg f.path e :: rest.2)
    else (f :: rest.1, rest.2)

/-- Resulting file system of the walk. -/
def walkFs (fs : List SrcFile) : List SrcFile := (runWalk fs).1

/-- Console output of the walk. -/
def walkOut (fs : List SrcFile) : List (List Char) := (runWalk fs).2

/-- `main`: with an argument vector of the wrong length, print usage and exit
with status 1 touching nothing; otherwise walk the tree and exit 0 (implicit).
Result: (exit code, console lines, resulting file system). -/
def mainRun (argv : List (List Char)) (fs : List SrcFile) :
    Nat × List (List Char) × List SrcFile :=
  if argv.length ≠ 2 then (1, [usageMsg], fs)
  else (0, walkOut fs, walkFs fs)

theorem walkFs_append (as bs : List SrcFile) :
    walkFs (as ++ bs) = walkFs as ++ walkFs bs := by
  induction as with
  | nil => simp [walkFs, runWalk]
  | cons f fs ih =>
    unfold walkFs at *
    by_cases h : matchesExt f.path = true
    · cases hr : f.read with
      | ok c => simp [runWalk, h, hr, ih]
      | error e => simp [runWalk, h, hr, ih]
    · simp only [Bool.not_eq_true] at h
      simp [runWalk, h, ih]

theorem walkOut_append (as bs : List SrcFile) :
    walkOut (as ++ bs) = walkOut as ++ walkOut bs := by
  induction as with
  | nil => simp [walkOut, runWalk]
  | cons f fs ih =>
    unfold walkOut at *
    by_cases h : matchesExt f.path = true
    · cases hr : f.read with
      | ok c => simp [runWalk, h, hr, ih]
      | error e => simp [runWalk, h, hr, ih]
    · simp only [Bool.not_eq_true] at h
      simp [runWalk, h, ih]

/-- C6: invoked with an argument count other than exactly one directory
argument (`len(sys.argv) != 2`), the program prints the usage message on
standard output, exits with status 1, and modifies no files. -/
theorem wrong_arg_count_usage (argv : List (List Char)) (fs : List SrcFile)
    (h : argv.length ≠ 2) : mainRun argv fs = (1, [usageMsg], fs) := by
  simp [mainRun, h]

/-- Witness for C6: zero command-line arguments (argv is just the program
name). -/
theorem wrong_arg_count_usage_witness :
    mainRun ["prog".toList] [⟨"a.ts".toList, Except.ok "// c".toList⟩]
      = (1, [usageMsg], [⟨"a.ts".toList, Except.ok "// c".toList⟩]) :=
  wrong_arg_count_usage ["prog".toList]
    [⟨"a.ts".toList, Except.ok "// c".toList⟩] (by decide)

/-- C7: a matching file whose processing raises is reported with the console
line `Error processing <path>: <message>`, is left unchanged, and the walk
continues with the files after it; a matching file that succeeds instead
produces `Processed: <path>` and is rewritten, with the walk continuing
likewise. -/
theorem per_file_error_reported (pre post : List SrcFile) (f : SrcFile)
    (e : List Char) (h : matchesExt f.path = true)
    (hr : f.read = Except.error e) :
    walkFs (pre ++ f :: post) = walkFs pre ++ f :: walkFs post
    ∧ walkOut (pre ++ f :: post)
        = walkOut pre ++ errorMsg f.path e :: walkOut post
    ∧ ∀ (g : SrcFile) (c : List Char), matchesExt g.path = true →
        g.read = Except.ok c →
        walkFs (pre ++ g :: post)
            = walkFs pre
              ++ { path := g.path, read := Except.ok (remove_inline_comments c) }
                :: walkFs post
          ∧ walkOut (pre ++ g :: post)
              = walkOut pre ++ processedMsg g.path :: walkOut post := by
  refine ⟨?_, ?_, ?_⟩
  · rw [walkFs_append]
    simp [walkFs, runWalk, h, hr]
  · rw [walkOut_append]
    simp [walkOut, runWalk, h, hr]
  · intro g c hg hgr
    constructor
    · rw [walkFs_append]
      simp [walkFs, runWalk, hg, hgr]
    · rw [walkOut_append]
      simp [walkOut, runWalk, hg, hgr]

/-- A healthy `.ts` file used by concrete driver runs. -/
def fileOkA : SrcFile := ⟨"a.ts".toList, Except.ok "// a\nlet a;".toList⟩

/-- A `.js` file whose processing raises. -/
def fileBad : SrcFile := ⟨"b.js".toList, Except.error "boom".toList⟩

/-- A second healthy `.ts` file used by concrete driver runs. -/
def fileOkC : SrcFile := ⟨"c.ts".toList, Except.ok "let c;".toList⟩

/-- Witness for C7: a failing file between two good ones is reported and the
third file is still processed; a succeeding file in the same position is
rewritten and reported with `Processed:`. -/
theorem per_file_error_reported_witness :
    (walkFs ([fileOkA] ++ fileBad :: [fileOkC])
        = walkFs [fileOkA] ++ fileBad :: walkFs [fileOkC]
      ∧ walkOut ([fileOkA] ++ fileBad :: [fileOkC])
          = walkOut [fileOkA]
            ++ errorMsg fileBad.path "boom".toList :: walkOut [fileOkC])
    ∧ walkFs ([fileOkA] ++ fileOkC :: [fileOkC])
        = walkFs [fileOkA]
          ++ { path := fileOkC.path,
               read := Except.ok (remove_inline_comments "let c;".toList) }
            :: walkFs [fileOkC]
      ∧ walkOut ([fileOkA] ++ fileOkC :: [fileOkC])
          = walkOut [fileOkA] ++ processedMsg fileOkC.path :: walkOut [fileOkC] := by
  have h := per_file_error_reported [fileOkA] [fileOkC] fileBad "boom".toList
    (by decide) rfl
  exact ⟨⟨h.1, h.2.1⟩, h.2.2 fileOkC "let c;".toList (by decide) rfl⟩

theorem runWalk_no_match (fs : List SrcFile)
    (h : ∀ f ∈ fs, matchesExt f.path = false) : runWalk fs = (fs, []) := by
  induction fs with
  | nil => rfl
  | cons f fs ih =>
    have hf := h f (List.mem_cons_self f fs)
    have ih2 := ih (fun a ha => h a (List.mem_cons.mpr (Or.inr ha)))
    simp [runWalk, hf, ih2]

/-- C8: on a directory tree with no `.ts` or `.js` file, the program (invoked
with the correct argument count) invokes the line filter on no file: it
prints nothing, exits with status 0, and leaves every file unchanged. -/
theorem no_matching_ext_no_changes (argv : List (List Char)) (fs : List SrcFile)
    (hargs : argv.length = 2) (h : ∀ f ∈ fs, matchesExt f.path = false) :
    mainRun argv fs = (0, [], fs) := by
  simp [mainRun, hargs, walkFs, walkOut, runWalk_no_match fs h]

/-- Witness for C8: a tree holding only a `.md` and a `.py` file. -/
theorem no_matching_ext_no_changes_witness :
    mainRun ["prog".toList, "dir".toList]
      [⟨"readme.md".toList, Except.ok "// t".toList⟩,
       ⟨"tool.py".toList, Except.ok "x = 1".toList⟩]
      = (0, [],
         [⟨"readme.md".toList, Except.ok "// t".toList⟩,
          ⟨"tool.py".toList, Except.ok "x = 1".toList⟩]) :=
  no_matching_ext_no_changes ["prog".toList, "dir".toList]
    [⟨"readme.md".toList, Except.ok "// t".toList⟩,
     ⟨"tool.py".toList, Except.ok "x = 1".toList⟩]
    (by decide) (by decide)
